import Mathlib

/-!
Verification of `src/tools/mesh_convert.py`, a one-shot OBJ-to-mesh text
converter.  The Python source is shallowly embedded below: the pure
converter `convert_obj_to_mesh` becomes a Lean function on `String`
(line splitting, whitespace tokenisation and Python's `int` parsing are
modelled explicitly over `List Char`), and the `__main__` driver becomes
`parseArgsLoop` (the argument-classification loop) plus `runMain`, a pure
function from the argument list and a read-only file system
(`String → Option String`) to the ordered list of writes performed and an
optional first error.
-/

namespace MeshConvert

/-- Python's notion of (ASCII) whitespace, as used by `str.split()` with no
arguments and by `str.strip()`. -/
def pyIsSpace (c : Char) : Bool :=
  c = ' ' || c = '\t' || c = '\n' || c = '\r' || c = '\x0b' || c = '\x0c'

/-- Line-boundary characters recognised by Python's `str.splitlines()`
(besides the two-character sequence CR LF, handled separately). -/
def isLB (c : Char) : Bool :=
  c = '\n' || c = '\r' || c = '\x0b' || c = '\x0c' || c = '\x1c' ||
  c = '\x1d' || c = '\x1e' || c = '\x85' || c = '\u2028' || c = '\u2029'

/-- Collapse each CR LF pair into a single LF, the first step of modelling
`str.splitlines()`. -/
def normEol : List Char → List Char
  | [] => []
  | [c] => [c]
  | c :: c2 :: cs =>
    if c = '\r' then
      if c2 = '\n' then '\n' :: normEol cs
      else '\r' :: normEol (c2 :: cs)
    else c :: normEol (c2 :: cs)

/-- Split at every line-boundary character.  Returns the first segment and
the list of remaining segments (so the result is never empty). -/
def splitB : List Char → List Char × List (List Char)
  | [] => ([], [])
  | c :: cs =>
    let r := splitB cs
    if isLB c then ([], r.1 :: r.2)
    else (c :: r.1, r.2)

/-- All segments produced by `splitB`. -/
def segmentsOf (l : List Char) : List (List Char) :=
  (splitB l).1 :: (splitB l).2

/-- Python's `str.splitlines()`: split at line boundaries (CR LF counting
as one boundary) and drop the empty segment a trailing boundary leaves. -/
def pySplitlines (l : List Char) : List (List Char) :=
  let segs := segmentsOf (normEol l)
  if segs.getLast? = some [] then segs.dropLast else segs

/-- Helper for `pyWords`: returns the maximal leading run of non-space
characters together with the words of the rest of the string. -/
def wordsCore : List Char → List Char × List (List Char)
  | [] => ([], [])
  | c :: cs =>
    let r := wordsCore cs
    if pyIsSpace c then ([], if r.1 = [] then r.2 else r.1 :: r.2)
    else (c :: r.1, r.2)

/-- Python's `str.split()` with no arguments (which also subsumes the
preceding `str.strip()` in the source): whitespace-separated words, with
empty words dropped. -/
def pyWords (l : List Char) : List (List Char) :=
  let r := wordsCore l
  if r.1 = [] then r.2 else r.1 :: r.2

/-- Digit accumulation for `pyInt`; fails on the first non-digit. -/
def parseDigitsAux : List Char → Nat → Option Nat
  | [], acc => some acc
  | c :: cs, acc =>
    if c.isDigit then parseDigitsAux cs (acc * 10 + (c.toNat - 48)) else none

/-- A nonempty all-digit string parsed as a natural number. -/
def pyIntCore : List Char → Option Nat
  | [] => none
  | c :: cs => if c.isDigit then parseDigitsAux cs (c.toNat - 48) else none

/-- Python's `int(s)` on the slash-free, whitespace-free tokens this script
feeds it: an optional sign followed by one or more decimal digits. -/
def pyInt : List Char → Option Int
  | '+' :: rest => (pyIntCore rest).map Int.ofNat
  | '-' :: rest => (pyIntCore rest).map (fun n => -(Int.ofNat n))
  | s => (pyIntCore s).map Int.ofNat

/-- The decimal digit character for `n < 10`. -/
def digitChar (n : Nat) : Char := Char.ofNat (48 + n)

/-- Digit extraction with explicit fuel (the fuel `n + 1` used below always
suffices, since a number has at most `n + 1` decimal digits). -/
def natDigitsAux : Nat → Nat → List Char → List Char
  | 0, _, acc => acc
  | fuel + 1, n, acc =>
    if n < 10 then digitChar n :: acc
    else natDigitsAux fuel (n / 10) (digitChar (n % 10) :: acc)

/-- Decimal digits of a natural number, most significant first. -/
def natDigits (n : Nat) : List Char := natDigitsAux (n + 1) n []

/-- Python's `str()` of an integer, as produced by the f-string
`f"{int(p.split("/")[0]) - 1} "` in the source. -/
def pyStrInt : Int → List Char
  | Int.ofNat n => natDigits n
  | Int.negSucc n => '-' :: natDigits (n + 1)

deriving instance DecidableEq for Except

/-- The three accumulation buffers of `convert_obj_to_mesh`. -/
structure Buffers where
  vertices : List Char
  indices : List Char
  texCoords : List Char
deriving DecidableEq, Repr

/-- The two exception kinds the converter can raise: `IndexError` from
`props[k]` on a too-short `v`/`vt` record, `ValueError` from `int(...)` on
a non-integer face sub-index. -/
inductive ConvError where
  | indexError : ConvError
  | valueError : ConvError
deriving DecidableEq, Repr

/-- The field character test of `p.split("/")[0]`, modelled as
`takeWhile notSlash`: everything before the first slash. -/
def notSlash (c : Char) : Bool := decide (c ≠ '/')

/-- The inner loop of the `"f"` case: for each field, split at `/`, parse
the first segment as an integer, subtract one, append it and a space to the
indices buffer. -/
def procFace (b : Buffers) : List (List Char) → Except ConvError Buffers
  | [] => .ok b
  | p :: ps =>
    match pyInt (p.takeWhile notSlash) with
    | none => .error .valueError
    | some n =>
      procFace { b with indices := b.indices ++ (pyStrInt (n - 1) ++ [' ']) } ps

/-- One iteration of the converter's line loop: tokenise, dispatch on the
record tag, extend the matching buffer or raise. -/
def stepLine (b : Buffers) (l : List Char) : Except ConvError Buffers :=
  match pyWords l with
  | [] => .ok b
  | name :: props =>
    if name = ['v'] then
      match props with
      | x :: y :: z :: _ =>
        .ok { b with vertices := b.vertices ++ (x ++ ' ' :: (y ++ ' ' :: (z ++ ['\n']))) }
      | _ => .error .indexError
    else if name = ['v', 't'] then
      match props with
      | u :: v :: _ =>
        .ok { b with texCoords := b.texCoords ++ (u ++ ' ' :: (v ++ ['\n'])) }
      | _ => .error .indexError
    else if name = ['f'] then
      procFace b props
    else .ok b

/-- The converter's line loop over an already-split line list. -/
def processLines (b : Buffers) : List (List Char) → Except ConvError Buffers
  | [] => .ok b
  | l :: ls =>
    match stepLine b l with
    | .error e => .error e
    | .ok b2 => processLines b2 ls

/-- The converter's buffers for a whole input text. -/
def convertBufs (txt : String) : Except ConvError Buffers :=
  processLines ⟨[], [], []⟩ (pySplitlines txt.data)

/-- The output template of the source: the four `:`-headed sections with the
three buffers interpolated. -/
def renderChars (b : Buffers) : List Char :=
  (":Vertices\n").data ++ b.vertices ++ ("\n:Indices\n").data ++ b.indices ++
  ("\n:TexCoord\n").data ++ b.texCoords ++ ("\n:Color\n").data

/-- `convert_obj_to_mesh(txt)` from the source: either the rendered output
text or the propagated exception. -/
def convert_obj_to_mesh (txt : String) : Except ConvError String :=
  match convertBufs txt with
  | .error e => .error e
  | .ok b => .ok (String.mk (renderChars b))

/-- The error outcomes of the `__main__` driver: the `IndexError` the
argument loop hits when `args[i]` is read past the end, the explicit
`Exception` raised on an output-count mismatch, the `FileNotFoundError`
from `open(path, "r")`, and a propagated converter exception. -/
inductive RunError where
  | argIndexError : RunError
  | configError : String → RunError
  | fileNotFound : RunError
  | convError : ConvError → RunError
deriving DecidableEq, Repr

/-- The argument-classification `while` loop of `__main__`, written as a
recursion over the remaining argument tokens.  `flag` is
`output_flag_enabled`.  At a token equal to `"-o"` the index is advanced
and `args[i]` is read again: past the end of the list this is the
`IndexError` modelled by `.error ()`; otherwise that following token is
appended to the outputs.  With the flag set, any other token is appended
to the outputs; with the flag clear it is appended to the inputs. -/
def parseArgsLoop (flag : Bool) : List String → Except Unit (List String × List String)
  | [] => .ok ([], [])
  | a :: rest =>
    if flag || a == "-o" then
      if a == "-o" then
        match rest with
        | [] => .error ()
        | nxt :: rest2 =>
          match parseArgsLoop true rest2 with
          | .error e => .error e
          | .ok (is, os) => .ok (is, nxt :: os)
      else
        match parseArgsLoop flag rest with
        | .error e => .error e
        | .ok (is, os) => .ok (is, a :: os)
    else
      match parseArgsLoop flag rest with
      | .error e => .error e
      | .ok (is, os) => .ok (a :: is, os)

/-- The final path component, `PurePath.name`: everything after the last
slash. -/
def basenameChars (p : List Char) : List Char :=
  ((p.reverse.takeWhile notSlash).reverse)

/-- The suffix separator test used by `stemChars`. -/
def notDot (c : Char) : Bool := decide (c ≠ '.')

/-- The reversed stem: the reversed basename with the (reversed) last
suffix and its dot dropped. -/
def stemRevOf (p : List Char) : List Char :=
  (basenameChars p).reverse.drop
    (((basenameChars p).reverse.takeWhile notDot).length + 1)

/-- `pathlib.Path(p).stem`: the final component with its last `.`-suffix
removed (a name with no dot, or whose only dot is the leading one, is kept
whole). -/
def stemChars (p : List Char) : List Char :=
  if ((basenameChars p).reverse.takeWhile notDot).length =
      (basenameChars p).reverse.length then basenameChars p
  else if stemRevOf p = [] then basenameChars p
  else (stemRevOf p).reverse

/-- POSIX `os.path.join` for two components. -/
def pathJoin (a b : String) : String :=
  if b.data.head? = some '/' then b
  else if a = "" || a.data.getLast? = some '/' then a ++ b
  else a ++ "/" ++ b

/-- The per-input output path built in the dead directory branch:
`os.path.join(output_args[0], Path(input_path).stem + ".mesh")`. -/
def derivedPath (out0 : String) (p : String) : String :=
  pathJoin out0 (String.mk (stemChars p.data) ++ ".mesh")

/-- The conversion loop of `__main__` over the input paths, starting at
index `i`.  `fs` is the read-only file system; the result is the ordered
list of `(path, content)` writes performed together with the error, if
any, that stopped the loop.  The write target per iteration reproduces the
source's branch chain: `is_single` first, then the (dead, since
`is_directory == is_single`) directory branch, then the positional
branch. -/
def runLoop (fs : String → Option String) (os : List String)
    (single dir : Bool) : List String → Nat → List (String × String) × Option RunError
  | [], _ => ([], none)
  | p :: ps, i =>
    match fs p with
    | none => ([], some .fileNotFound)
    | some t =>
      match convert_obj_to_mesh t with
      | .error e => ([], some (.convError e))
      | .ok data =>
        let tgt :=
          if single then os.headD ""
          else if dir then derivedPath (os.headD "") p
          else os.getD i ""
        let r := runLoop fs os single dir ps (i + 1)
        ((tgt, data) :: r.1, r.2)

/-- The whole `__main__` body as a pure function: classify the arguments,
check the output-count rule, then run the conversion loop.  Returns the
ordered list of writes performed and the first error, if any. -/
def runMain (args : List String) (fs : String → Option String) :
    List (String × String) × Option RunError :=
  match parseArgsLoop false args with
  | .error _ => ([], some .argIndexError)
  | .ok (is, os) =>
    let single := os.length == 1
    if !single && os.length != is.length then
      ([], some (.configError "invalid output: output should be equal to inputs or be one"))
    else
      let dir := single && os.length == 1
      runLoop fs os single dir is 0

/-- The content a path holds after a list of writes is applied in order
(`none` if the path was never written). -/
def finalContent (ws : List (String × String)) (p : String) : Option String :=
  ws.foldl (fun acc w => if w.1 = p then some w.2 else acc) none

/-- The conversion result for the path `p` under file system `fs`,
defaulting to `""` when the read or the conversion fails; used to state
what a successful run writes. -/
def convOf (fs : String → Option String) (p : String) : String :=
  match fs p with
  | none => ""
  | some t =>
    match convert_obj_to_mesh t with
    | .ok r => r
    | .error _ => ""

/-- Read succeeds and the conversion succeeds for path `p` under `fs`. -/
def readConvOk (fs : String → Option String) (p : String) : Bool :=
  match fs p with
  | none => false
  | some t =>
    match convert_obj_to_mesh t with
    | .ok _ => true
    | .error _ => false

/-- Join a list of lines with single LF separators (no trailing newline):
the text obtained after deleting lines from an input. -/
def joinNL : List (List Char) → List Char
  | [] => []
  | [l] => l
  | l :: l2 :: ls => l ++ '\n' :: joinNL (l2 :: ls)

/-- A line the converter acts on: nonempty token list whose first token is
`v`, `vt` or `f`. -/
def keepLine (l : List Char) : Bool :=
  match pyWords l with
  | [] => false
  | n :: _ => decide (n = ['v']) || decide (n = ['v', 't']) || decide (n = ['f'])

/-- The input text with every blank line and every line of an unrecognised
record kind deleted. -/
def cleanedText (txt : String) : String :=
  String.mk (joinNL ((pySplitlines txt.data).filter keepLine))

/-- The contribution of one line to the vertices buffer. -/
def lineVerts (l : List Char) : List Char :=
  match pyWords l with
  | [] => []
  | n :: ps =>
    if n = ['v'] then
      match ps with
      | x :: y :: z :: _ => x ++ ' ' :: (y ++ ' ' :: (z ++ ['\n']))
      | _ => []
    else []

/-- The contribution of one line to the texture-coordinate buffer. -/
def lineTex (l : List Char) : List Char :=
  match pyWords l with
  | [] => []
  | n :: ps =>
    if n = ['v', 't'] then
      match ps with
      | u :: v :: _ => u ++ ' ' :: (v ++ ['\n'])
      | _ => []
    else []

/-- The first `/`-separated segment of each field of a face line (empty
for any other line): the tokens the source feeds to `int(...)`. -/
def lineSlots (l : List Char) : List (List Char) :=
  match pyWords l with
  | [] => []
  | n :: ps =>
    if n = ['f'] then ps.map (fun p => p.takeWhile notSlash) else []

/-- The text the converter appends to the indices buffer for one face
slot: the parsed integer minus one, then a space. -/
def idxChunk (s : List Char) : List Char :=
  pyStrInt ((pyInt s).getD 0 - 1) ++ [' ']

/-- The contribution of one line to the indices buffer. -/
def lineIdx (l : List Char) : List Char :=
  ((lineSlots l).map idxChunk).flatten

/-- All face slots of an input text, in input order. -/
def allSlots (txt : String) : List (List Char) :=
  ((pySplitlines txt.data).map lineSlots).flatten

/-- A line that does not make the converter raise: `v` with at least 3
fields, `vt` with at least 2, `f` with every slot parseable, or anything
else. -/
def lineOk (l : List Char) : Bool :=
  match pyWords l with
  | [] => true
  | n :: ps =>
    if n = ['v'] then decide (3 ≤ ps.length)
    else if n = ['v', 't'] then decide (2 ≤ ps.length)
    else if n = ['f'] then
      ps.all (fun p => (pyInt (p.takeWhile notSlash)).isSome)
    else true

/-- A `v` record with fewer than 3 fields or a `vt` record with fewer than
2 fields: the shapes that hit `IndexError`. -/
def shortLine (l : List Char) : Bool :=
  match pyWords l with
  | [] => false
  | n :: ps =>
    (decide (n = ['v']) && decide (ps.length < 3)) ||
    (decide (n = ['v', 't']) && decide (ps.length < 2))

/-- A line that cannot make `int(...)` raise: not a face line, or a face
line all of whose slots parse. -/
def faceParseOk (l : List Char) : Bool :=
  match pyWords l with
  | [] => true
  | n :: ps =>
    !decide (n = ['f']) ||
    ps.all (fun p => (pyInt (p.takeWhile notSlash)).isSome)

/-- Some line of the text is a too-short `v`/`vt` record. -/
def hasShortLine (txt : String) : Bool :=
  (pySplitlines txt.data).any shortLine

/-- No line of the text makes `int(...)` raise. -/
def facesParse (txt : String) : Bool :=
  (pySplitlines txt.data).all faceParseOk

/-- Scanning the lines in input order, a short `v`/`vt` record is reached
before any face line with an unparseable first sub-index: the positional
condition under which the first error the line loop raises is the
`IndexError` (every line before the first short record steps through
without raising). -/
def shortBeforeBadFace : List (List Char) → Bool
  | [] => false
  | l :: ls => shortLine l || (faceParseOk l && shortBeforeBadFace ls)

/-- The line's first token is `v`. -/
def isVLine (l : List Char) : Bool :=
  match pyWords l with
  | [] => false
  | n :: _ => decide (n = ['v'])

/-- The line's first token is `vt`. -/
def isVTLine (l : List Char) : Bool :=
  match pyWords l with
  | [] => false
  | n :: _ => decide (n = ['v', 't'])

/-- The line's first token is `f`. -/
def isFLine (l : List Char) : Bool :=
  match pyWords l with
  | [] => false
  | n :: _ => decide (n = ['f'])

/-- Number of `v` lines of the text. -/
def countV (txt : String) : Nat :=
  ((pySplitlines txt.data).filter isVLine).length

/-- Number of `vt` lines of the text. -/
def countVT (txt : String) : Nat :=
  ((pySplitlines txt.data).filter isVTLine).length

/-- Number of `f` lines of the text. -/
def countF (txt : String) : Nat :=
  ((pySplitlines txt.data).filter isFLine).length

/-- Every face line has exactly 3 vertex references. -/
def facesTriangular (txt : String) : Bool :=
  (pySplitlines txt.data).all (fun l => !isFLine l || (lineSlots l).length == 3)

/-- The file system used by the concrete batch runs below: two small OBJ
files. -/
def exFS1 : String → Option String := fun p =>
  if p = "a.obj" then some "v 1 2 3"
  else if p = "b.obj" then some "vt 0 0"
  else none

/-- A successful `procFace` appends one rendered chunk per field to the
indices buffer, leaves the other buffers alone, and implies every field's
first `/`-segment parses as an integer. -/
theorem procFace_ok (ps : List (List Char)) : ∀ b0 b1, procFace b0 ps = .ok b1 →
    b1 = { b0 with indices := b0.indices ++
        (ps.map (fun p => idxChunk (p.takeWhile notSlash))).flatten } ∧
      ps.all (fun p => (pyInt (p.takeWhile notSlash)).isSome) = true := by
  induction ps with
  | nil =>
    intro b0 b1 h
    rw [procFace] at h
    cases h
    simp
  | cons p ps ih =>
    intro b0 b1 h
    rw [procFace] at h
    cases hp : pyInt (p.takeWhile notSlash) with
    | none => rw [hp] at h; exact absurd h (by simp)
    | some n =>
      rw [hp] at h
      obtain ⟨h1, h2⟩ := ih _ _ h
      have hsome : (pyInt (p.takeWhile notSlash)).isSome = true := by rw [hp]; rfl
      refine ⟨?_, ?_⟩
      · rw [h1]
        simp [idxChunk, hp, List.append_assoc]
      · simp only [List.all_cons, Bool.and_eq_true]
        exact ⟨hsome, h2⟩

/-- A successful `stepLine` extends each buffer by exactly that line's
contribution and implies the line is well formed. -/
theorem stepLine_ok (b0 b1 : Buffers) (l : List Char) (h : stepLine b0 l = .ok b1) :
    b1.vertices = b0.vertices ++ lineVerts l ∧
      b1.texCoords = b0.texCoords ++ lineTex l ∧
      b1.indices = b0.indices ++ lineIdx l ∧ lineOk l = true := by
  rw [stepLine] at h
  split at h
  next hw =>
    cases h
    simp [lineVerts, lineTex, lineIdx, lineSlots, lineOk, hw]
  next name props hw =>
    by_cases hv : name = ['v']
    · subst hv
      rw [if_pos rfl] at h
      rcases props with _ | ⟨x, _ | ⟨y, _ | ⟨z, rest⟩⟩⟩
      · simp at h
      · simp at h
      · simp at h
      · simp only [Except.ok.injEq] at h
        subst h
        refine ⟨?_, ?_, ?_, ?_⟩ <;>
          simp [lineVerts, lineTex, lineIdx, lineSlots, lineOk, hw]
    · rw [if_neg hv] at h
      by_cases hvt : name = ['v', 't']
      · subst hvt
        rw [if_pos rfl] at h
        rcases props with _ | ⟨u, _ | ⟨v, rest⟩⟩
        · simp at h
        · simp at h
        · simp only [Except.ok.injEq] at h
          subst h
          refine ⟨?_, ?_, ?_, ?_⟩ <;>
            simp [lineVerts, lineTex, lineIdx, lineSlots, lineOk, hw, hv]
      · rw [if_neg hvt] at h
        by_cases hf : name = ['f']
        · subst hf
          rw [if_pos rfl] at h
          obtain ⟨h1, h2⟩ := procFace_ok _ _ _ h
          subst h1
          refine ⟨?_, ?_, ?_, ?_⟩ <;>
            simp [lineVerts, lineTex, lineIdx, lineSlots, lineOk, hw, hv, hvt, h2,
              List.map_map, Function.comp_def]
        · rw [if_neg hf] at h
          cases h
          simp [lineVerts, lineTex, lineIdx, lineSlots, lineOk, hw, hv, hvt, hf]

/-- Master lemma: a successful run of the converter's line loop produces
exactly the concatenation of the per-line contributions, and every
processed line is well formed. -/
theorem processLines_ok (ls : List (List Char)) : ∀ b0 b, processLines b0 ls = .ok b →
    b.vertices = b0.vertices ++ (ls.map lineVerts).flatten ∧
      b.texCoords = b0.texCoords ++ (ls.map lineTex).flatten ∧
      b.indices = b0.indices ++ (ls.map lineIdx).flatten ∧
      ∀ l ∈ ls, lineOk l = true := by
  induction ls with
  | nil =>
    intro b0 b h
    rw [processLines] at h
    cases h
    simp
  | cons l ls ih =>
    intro b0 b h
    rw [processLines] at h
    cases hs : stepLine b0 l with
    | error e => rw [hs] at h; exact absurd h (by simp)
    | ok b2 =>
      rw [hs] at h
      obtain ⟨s1, s2, s3, s4⟩ := stepLine_ok _ _ _ hs
      obtain ⟨p1, p2, p3, p4⟩ := ih _ _ h
      refine ⟨?_, ?_, ?_, ?_⟩
      · rw [p1, s1]; simp [List.append_assoc]
      · rw [p2, s2]; simp [List.append_assoc]
      · rw [p3, s3]; simp [List.append_assoc]
      · intro x hx
        rcases List.mem_cons.mp hx with rfl | hx
        · exact s4
        · exact p4 x hx

/-- Chunk-per-slot flattening commutes with collecting the slots first. -/
theorem flatten_map_flatten {α β γ : Type} (f : β → List γ) (g : α → List β)
    (L : List α) :
    (L.map (fun x => ((g x).map f).flatten)).flatten =
      (((L.map g).flatten).map f).flatten := by
  induction L with
  | nil => simp
  | cons a L ih => simp [ih]

/-- A well-formed line's slots all parse as integers. -/
theorem lineSlots_parse (l : List Char) (hok : lineOk l = true) :
    ∀ s ∈ lineSlots l, (pyInt s).isSome = true := by
  intro s hs
  rw [lineSlots] at hs
  split at hs
  · simp at hs
  next n ps hw =>
    by_cases hf : n = ['f']
    · subst hf
      rw [if_pos rfl] at hs
      rw [List.mem_map] at hs
      obtain ⟨p, hp, rfl⟩ := hs
      rw [lineOk, hw] at hok
      simp only [show (['f'] : List Char) ≠ ['v'] from by decide,
        show (['f'] : List Char) ≠ ['v', 't'] from by decide, if_neg,
        if_pos, if_true, if_false, ne_eq, not_false_eq_true] at hok
      rw [List.all_eq_true] at hok
      exact hok p hp
    · rw [if_neg hf] at hs
      simp at hs

/-- C3: for every `f` line and every one of its fields, regardless of the
number of fields on the line, the converter appends the field's first
`/`-segment parsed as an integer, minus 1, followed by one space, so the
indices buffer is exactly the in-order concatenation of those chunks over
all face slots of the input, and every such slot parses. -/
theorem face_index_decrement (txt : String) (b : Buffers)
    (h : convertBufs txt = .ok b) :
    b.indices = ((allSlots txt).map idxChunk).flatten ∧
      ∀ s ∈ allSlots txt, (pyInt s).isSome = true := by
  obtain ⟨-, -, h3, h4⟩ := processLines_ok _ _ _ h
  refine ⟨?_, ?_⟩
  · rw [h3, allSlots]
    simp only [List.nil_append]
    rw [← flatten_map_flatten idxChunk lineSlots]
    rfl
  · intro s hs
    rw [allSlots, List.mem_flatten] at hs
    obtain ⟨sl, hsl, hmem⟩ := hs
    rw [List.mem_map] at hsl
    obtain ⟨l, hl, rfl⟩ := hsl
    exact lineSlots_parse l (h4 l hl) s hmem

/-- Witness for C3 at a face line with four fields (`f 2/9 3 4/1 5`): the
conversion succeeds, its indices buffer is `1 2 3 4 `, and it equals the
chunk concatenation over the four slots, each of which parses. -/
theorem face_index_decrement_witness :
    convertBufs "f 2/9 3 4/1 5" = .ok ⟨[], ("1 2 3 4 ").data, []⟩ ∧
      (("1 2 3 4 ").data = ((allSlots "f 2/9 3 4/1 5").map idxChunk).flatten ∧
        ∀ s ∈ allSlots "f 2/9 3 4/1 5", (pyInt s).isSome = true) :=
  ⟨by decide, face_index_decrement "f 2/9 3 4/1 5" ⟨[], ("1 2 3 4 ").data, []⟩ (by decide)⟩

/-- C2 (amended): the worked example's actual output.  The converter's
template emits only a single newline between the indices buffer (which
ends with a space, not a newline) and the `:TexCoord` header. -/
theorem example_conversion :
    convert_obj_to_mesh "v 1.0 2.0 3.0\nvt 0.5 0.5\nf 1/1 2/2 3/3" =
      .ok ":Vertices\n1.0 2.0 3.0\n\n:Indices\n0 1 2 \n:TexCoord\n0.5 0.5\n\n:Color\n" := by
  decide

/-- C2 counterexample: on the spec's example input the converter does not
return the spec's claimed string, which has an extra blank line before
`:TexCoord`. -/
theorem example_conversion_counterexample :
    convert_obj_to_mesh "v 1.0 2.0 3.0\nvt 0.5 0.5\nf 1/1 2/2 3/3" ≠
      .ok ":Vertices\n1.0 2.0 3.0\n\n:Indices\n0 1 2 \n\n:TexCoord\n0.5 0.5\n\n:Color\n" := by
  decide

/-- A line the converter ignores (blank, or unknown record tag) leaves the
buffers untouched. -/
theorem stepLine_not_keep (b : Buffers) (l : List Char) (h : keepLine l = false) :
    stepLine b l = .ok b := by
  rw [keepLine] at h
  rw [stepLine]
  split
  · rfl
  next name props hw =>
    rw [hw] at h
    simp only [Bool.or_eq_false_iff, decide_eq_false_iff_not] at h
    obtain ⟨⟨hv, hvt⟩, hf⟩ := h
    rw [if_neg hv, if_neg hvt, if_neg hf]

/-- Dropping the ignored lines from the line list does not change the
result of the converter's loop. -/
theorem processLines_filter (ls : List (List Char)) : ∀ b,
    processLines b (ls.filter keepLine) = processLines b ls := by
  induction ls with
  | nil => intro b; rfl
  | cons l ls ih =>
    intro b
    cases hk : keepLine l
    · rw [List.filter_cons_of_neg (by simp [hk])]
      rw [ih]
      conv_rhs => rw [processLines, stepLine_not_keep b l hk]
    · rw [List.filter_cons_of_pos hk]
      rw [processLines, processLines]
      cases stepLine b l
      · rfl
      · exact ih _

/-- No character of any `splitB` segment is a line boundary. -/
theorem splitB_chars (l : List Char) :
    (∀ c ∈ (splitB l).1, isLB c = false) ∧
      ∀ s ∈ (splitB l).2, ∀ c ∈ s, isLB c = false := by
  induction l with
  | nil => simp [splitB]
  | cons c cs ih =>
    obtain ⟨ih1, ih2⟩ := ih
    cases hc : isLB c
    · simp only [splitB, hc, Bool.false_eq_true, if_false]
      refine ⟨?_, ih2⟩
      intro x hx
      rcases List.mem_cons.mp hx with rfl | hx
      · exact hc
      · exact ih1 x hx
    · simp only [splitB, hc, if_true]
      refine ⟨by simp, ?_⟩
      intro s hs
      rcases List.mem_cons.mp hs with rfl | hs
      · exact ih1
      · exact ih2 s hs

/-- No character of any line returned by `pySplitlines` is a line
boundary. -/
theorem pySplitlines_chars (t : List Char) :
    ∀ l ∈ pySplitlines t, ∀ c ∈ l, isLB c = false := by
  intro l hl
  rw [pySplitlines] at hl
  have hseg : l ∈ segmentsOf (normEol t) := by
    split at hl
    · exact List.dropLast_subset _ hl
    · exact hl
  rw [segmentsOf] at hseg
  rcases List.mem_cons.mp hseg with rfl | hseg
  · exact (splitB_chars _).1
  · exact (splitB_chars _).2 l hseg

/-- `splitB` passes over a boundary-free prefix. -/
theorem splitB_free_append (p q : List Char) (hp : ∀ c ∈ p, isLB c = false) :
    splitB (p ++ q) = (p ++ (splitB q).1, (splitB q).2) := by
  induction p with
  | nil => simp
  | cons c p ih =>
    have hc : isLB c = false := hp c (by simp)
    have ih2 := ih (fun x hx => hp x (by simp [hx]))
    simp [splitB, hc, ih2]

/-- A boundary-free list is one single segment. -/
theorem splitB_free (l : List Char) (h : ∀ c ∈ l, isLB c = false) :
    splitB l = (l, []) := by
  simpa [splitB] using splitB_free_append l [] h

/-- Every character of a LF-joined line list is the separator or a
character of one of the lines. -/
theorem mem_joinNL (ls : List (List Char)) (c : Char) (hc : c ∈ joinNL ls) :
    c = '\n' ∨ ∃ l ∈ ls, c ∈ l := by
  induction ls with
  | nil => simp [joinNL] at hc
  | cons l ls ih =>
    cases ls with
    | nil =>
      right
      exact ⟨l, by simp, by simpa [joinNL] using hc⟩
    | cons l2 ls2 =>
      rw [joinNL] at hc
      rcases List.mem_append.mp hc with h | h
      · right; exact ⟨l, by simp, h⟩
      · rcases List.mem_cons.mp h with rfl | h
        · left; rfl
        · rcases ih h with h | ⟨l3, hl3, hcl3⟩
          · left; exact h
          · right; exact ⟨l3, by simp [hl3], hcl3⟩

/-- `normEol` is the identity on CR-free text. -/
theorem normEol_id (l : List Char) (h : ∀ c ∈ l, c ≠ '\r') : normEol l = l := by
  induction l with
  | nil => rfl
  | cons c cs ih =>
    cases cs with
    | nil => rfl
    | cons c2 cs2 =>
      have hc : c ≠ '\r' := h c (by simp)
      rw [normEol, if_neg hc, ih (fun x hx => h x (by simp [hx]))]

/-- Splitting a LF-joined list of boundary-free lines recovers the
lines. -/
theorem segmentsOf_joinNL (ls : List (List Char)) (h0 : ls ≠ [])
    (hfree : ∀ l ∈ ls, ∀ c ∈ l, isLB c = false) :
    segmentsOf (joinNL ls) = ls := by
  induction ls with
  | nil => exact absurd rfl h0
  | cons l ls ih =>
    cases ls with
    | nil =>
      rw [joinNL, segmentsOf, splitB_free l (hfree l (by simp))]
    | cons l2 ls2 =>
      have ihh := ih (by simp) (fun x hx => hfree x (by simp [hx]))
      rw [segmentsOf] at ihh
      rw [joinNL, segmentsOf,
        splitB_free_append l ('\n' :: joinNL (l2 :: ls2)) (hfree l (by simp))]
      simp only [splitB, show isLB '\n' = true from by decide, if_true]
      simpa using ihh

/-- `pySplitlines` of a LF-joined list of nonempty boundary-free lines
recovers the lines. -/
theorem pySplitlines_joinNL (ls : List (List Char)) (hne : ∀ l ∈ ls, l ≠ [])
    (hfree : ∀ l ∈ ls, ∀ c ∈ l, isLB c = false) :
    pySplitlines (joinNL ls) = ls := by
  cases ls with
  | nil => rfl
  | cons l ls2 =>
    rw [pySplitlines]
    rw [normEol_id _ ?hcr]
    case hcr =>
      intro c hc
      rcases mem_joinNL _ _ hc with rfl | ⟨l3, hl3, hc3⟩
      · decide
      · intro hceq
        have := hfree l3 hl3 c hc3
        rw [hceq] at this
        exact absurd this (by decide)
    rw [segmentsOf_joinNL _ (by simp) hfree]
    rw [if_neg ?hlast]
    case hlast =>
      intro heq
      have hmem : ([] : List Char) ∈ l :: ls2 := by
        have := List.getLast?_eq_getLast (l :: ls2) (by simp)
        rw [this] at heq
        have hg := List.getLast_mem (l := l :: ls2) (by simp)
        rwa [Option.some_inj.mp heq] at hg
      exact hne [] hmem rfl

/-- A kept line is nonempty (it has at least its record-tag token). -/
theorem keepLine_ne_nil (l : List Char) (h : keepLine l = true) : l ≠ [] := by
  intro heq
  subst heq
  exact absurd h (by decide)

/-- C7: blank lines and lines with an unrecognised record tag contribute
nothing: converting the text with all such lines deleted yields the same
result (output or error) as converting the original text. -/
theorem unknown_records_ignored (txt : String) :
    convert_obj_to_mesh (cleanedText txt) = convert_obj_to_mesh txt := by
  rw [convert_obj_to_mesh, convert_obj_to_mesh, convertBufs, convertBufs]
  have hdata : (cleanedText txt).data =
      joinNL ((pySplitlines txt.data).filter keepLine) := rfl
  rw [hdata]
  rw [pySplitlines_joinNL _ ?hne ?hfree]
  · rw [processLines_filter]
  case hne =>
    intro l hl
    exact keepLine_ne_nil l (List.mem_filter.mp hl).2
  case hfree =>
    intro l hl c hc
    exact pySplitlines_chars txt.data l (List.mem_filter.mp hl).1 c hc

/-- The face loop never raises `IndexError`. -/
theorem procFace_no_index (ps : List (List Char)) : ∀ b,
    procFace b ps ≠ .error .indexError := by
  induction ps with
  | nil => intro b h; simp [procFace] at h
  | cons p ps ih =>
    intro b h
    rw [procFace] at h
    cases hp : pyInt (p.takeWhile notSlash)
    · rw [hp] at h; simp at h
    · rw [hp] at h; exact ih _ h

/-- The face loop succeeds when every slot parses. -/
theorem procFace_all_ok (ps : List (List Char))
    (h : ps.all (fun p => (pyInt (p.takeWhile notSlash)).isSome) = true) :
    ∀ b, ∃ b2, procFace b ps = .ok b2 := by
  induction ps with
  | nil => intro b; exact ⟨b, rfl⟩
  | cons p ps ih =>
    rw [List.all_cons, Bool.and_eq_true] at h
    obtain ⟨hh, ht⟩ := h
    intro b
    cases hp : pyInt (p.takeWhile notSlash)
    · rw [hp] at hh; simp at hh
    · obtain ⟨b2, hb2⟩ := ih ht _
      exact ⟨b2, by rw [procFace, hp]; exact hb2⟩

/-- A too-short `v`/`vt` record makes the line step raise `IndexError`. -/
theorem stepLine_short (b : Buffers) (l : List Char) (h : shortLine l = true) :
    stepLine b l = .error .indexError := by
  rw [shortLine] at h
  rw [stepLine]
  split
  next hw => rw [hw] at h; simp at h
  next name props hw =>
    rw [hw] at h
    simp at h
    rcases h with ⟨hv, hlen⟩ | ⟨hvt, hlen⟩
    · subst hv
      rw [if_pos rfl]
      rcases props with _ | ⟨x, _ | ⟨y, _ | ⟨z, rest⟩⟩⟩
      · rfl
      · rfl
      · rfl
      · simp [List.length_cons] at hlen; omega
    · subst hvt
      rw [if_neg (by decide), if_pos rfl]
      rcases props with _ | ⟨u, _ | ⟨v, rest⟩⟩
      · rfl
      · rfl
      · simp [List.length_cons] at hlen; omega

/-- A line that is not a short `v`/`vt` record never raises `IndexError`. -/
theorem stepLine_not_short (b : Buffers) (l : List Char) (h : shortLine l = false) :
    stepLine b l ≠ .error .indexError := by
  rw [shortLine] at h
  rw [stepLine]
  split
  · simp
  next name props hw =>
    rw [hw] at h
    simp at h
    obtain ⟨hv, hvt⟩ := h
    by_cases hnv : name = ['v']
    · subst hnv
      rw [if_pos rfl]
      have hlen : 3 ≤ props.length := hv rfl
      rcases props with _ | ⟨x, _ | ⟨y, _ | ⟨z, rest⟩⟩⟩
      · exact absurd hlen (by simp)
      · exact absurd hlen (by simp)
      · exact absurd hlen (by simp)
      · simp
    · rw [if_neg hnv]
      by_cases hnvt : name = ['v', 't']
      · subst hnvt
        rw [if_pos rfl]
        have hlen : 2 ≤ props.length := hvt rfl
        rcases props with _ | ⟨u, _ | ⟨v, rest⟩⟩
        · exact absurd hlen (by simp)
        · exact absurd hlen (by simp)
        · simp
      · rw [if_neg hnvt]
        by_cases hnf : name = ['f']
        · rw [if_pos hnf]
          exact procFace_no_index props b
        · rw [if_neg hnf]
          simp

/-- A line that is neither short nor face-unparseable steps successfully. -/
theorem stepLine_progress (b : Buffers) (l : List Char) (hs : shortLine l = false)
    (hf : faceParseOk l = true) : ∃ b2, stepLine b l = .ok b2 := by
  rw [shortLine] at hs
  rw [faceParseOk] at hf
  rw [stepLine]
  split
  · exact ⟨b, rfl⟩
  next name props hw =>
    rw [hw] at hs hf
    simp at hs hf
    obtain ⟨hv, hvt⟩ := hs
    by_cases hnv : name = ['v']
    · subst hnv
      rw [if_pos rfl]
      have hlen : 3 ≤ props.length := hv rfl
      rcases props with _ | ⟨x, _ | ⟨y, _ | ⟨z, rest⟩⟩⟩
      · exact absurd hlen (by simp)
      · exact absurd hlen (by simp)
      · exact absurd hlen (by simp)
      · exact ⟨_, rfl⟩
    · rw [if_neg hnv]
      by_cases hnvt : name = ['v', 't']
      · subst hnvt
        rw [if_pos rfl]
        have hlen : 2 ≤ props.length := hvt rfl
        rcases props with _ | ⟨u, _ | ⟨v, rest⟩⟩
        · exact absurd hlen (by simp)
        · exact absurd hlen (by simp)
        · exact ⟨_, rfl⟩
      · rw [if_neg hnvt]
        by_cases hnf : name = ['f']
        · subst hnf
          rw [if_pos rfl]
          exact procFace_all_ok props (by simpa using hf) b
        · rw [if_neg hnf]
          exact ⟨b, rfl⟩

/-- With a short record present and every face slot parseable, the line
loop raises `IndexError`. -/
theorem processLines_short (ls : List (List Char)) :
    (∃ l ∈ ls, shortLine l = true) → (∀ l ∈ ls, faceParseOk l = true) →
      ∀ b, processLines b ls = .error .indexError := by
  induction ls with
  | nil =>
    intro hshort _ b
    obtain ⟨l, hl, _⟩ := hshort
    exact absurd hl (by simp)
  | cons l ls ih =>
    intro hshort hparse b
    cases hsl : shortLine l
    · obtain ⟨b2, hb2⟩ := stepLine_progress b l hsl (hparse l (by simp))
      rw [processLines, hb2]
      apply ih ?_ (fun x hx => hparse x (by simp [hx]))
      obtain ⟨l2, hl2, hsl2⟩ := hshort
      rcases List.mem_cons.mp hl2 with rfl | hl2
      · rw [hsl] at hsl2; simp at hsl2
      · exact ⟨l2, hl2, hsl2⟩
    · rw [processLines, stepLine_short b l hsl]

/-- With no short record anywhere, the line loop never raises
`IndexError`. -/
theorem processLines_no_short (ls : List (List Char))
    (h : ∀ l ∈ ls, shortLine l = false) : ∀ b,
    processLines b ls ≠ .error .indexError := by
  induction ls with
  | nil => intro b hc; simp [processLines] at hc
  | cons l ls ih =>
    intro b hc
    rw [processLines] at hc
    cases hst : stepLine b l
    · rw [hst] at hc
      cases hc
      exact stepLine_not_short b l (h l (by simp)) hst
    · rw [hst] at hc
      exact ih (fun x hx => h x (by simp [hx])) _ hc

/-- A short record anywhere makes the line loop raise: whatever line the
loop reaches first either steps through or raises, and the short record
itself raises if reached. -/
theorem processLines_short_aborts (ls : List (List Char))
    (h : ∃ l ∈ ls, shortLine l = true) : ∀ b,
    ∃ e, processLines b ls = .error e := by
  induction ls with
  | nil =>
    obtain ⟨l, hl, -⟩ := h
    exact absurd hl (by simp)
  | cons l ls ih =>
    intro b
    cases hst : stepLine b l with
    | error e => exact ⟨e, by rw [processLines, hst]⟩
    | ok b2 =>
      rw [processLines, hst]
      apply ih ?_ b2
      obtain ⟨l2, hl2, hsl2⟩ := h
      rcases List.mem_cons.mp hl2 with rfl | hl2
      · have hcontra := stepLine_short b l2 hsl2
        rw [hst] at hcontra
        exact absurd hcontra (by simp)
      · exact ⟨l2, hl2, hsl2⟩

/-- When a short record comes before any unparseable face field, the line
loop raises exactly `IndexError`: every earlier line steps through. -/
theorem processLines_short_posit (ls : List (List Char))
    (h : shortBeforeBadFace ls = true) : ∀ b,
    processLines b ls = .error .indexError := by
  induction ls with
  | nil => simp [shortBeforeBadFace] at h
  | cons l ls ih =>
    intro b
    rw [shortBeforeBadFace] at h
    cases hsl : shortLine l
    · rw [hsl] at h
      simp only [Bool.false_or, Bool.and_eq_true] at h
      obtain ⟨h1, h2⟩ := h
      obtain ⟨b2, hb2⟩ := stepLine_progress b l hsl h1
      rw [processLines, hb2]
      exact ih h2 b2
    · rw [processLines, stepLine_short b l hsl]

/-- C6 (amended): a too-short `v`/`vt` record anywhere makes the converter
raise an uncaught error; the error is `IndexError` whenever no face line
with an unparseable first sub-index precedes the short record (the loop
raises whatever its first bad line produces); without any short record the
`IndexError` branch is never reached; and a file whose content contains a
short record contributes no write and stops the batch loop with the
propagated error, which under the same positional proviso is the
`IndexError`. -/
theorem short_record_behavior (txt : String) :
    (hasShortLine txt = true → ∃ e, convert_obj_to_mesh txt = .error e) ∧
      (shortBeforeBadFace (pySplitlines txt.data) = true →
        convert_obj_to_mesh txt = .error .indexError) ∧
      (hasShortLine txt = false →
        convert_obj_to_mesh txt ≠ .error .indexError) ∧
      ∀ (fs : String → Option String) (os : List String) (single dir : Bool)
        (p : String) (ps : List String) (i : Nat),
        hasShortLine txt = true → fs p = some txt →
        ∃ e, convert_obj_to_mesh txt = .error e ∧
          runLoop fs os single dir (p :: ps) i =
            ([], some (.convError e)) ∧
          (shortBeforeBadFace (pySplitlines txt.data) = true →
            e = ConvError.indexError) := by
  have habort : hasShortLine txt = true →
      ∃ e, convert_obj_to_mesh txt = .error e := by
    intro h1
    rw [hasShortLine, List.any_eq_true] at h1
    obtain ⟨e, he⟩ := processLines_short_aborts _ h1 ⟨[], [], []⟩
    exact ⟨e, by rw [convert_obj_to_mesh, convertBufs, he]⟩
  have hposit : shortBeforeBadFace (pySplitlines txt.data) = true →
      convert_obj_to_mesh txt = .error .indexError := by
    intro h
    rw [convert_obj_to_mesh, convertBufs, processLines_short_posit _ h]
  refine ⟨habort, hposit, ?_, ?_⟩
  · intro h1 hc
    rw [hasShortLine] at h1
    rw [convert_obj_to_mesh, convertBufs] at hc
    cases hb : processLines ⟨[], [], []⟩ (pySplitlines txt.data) with
    | error e =>
      rw [hb] at hc
      cases hc
      refine processLines_no_short _ ?_ _ hb
      intro l hl
      cases hsl : shortLine l
      · rfl
      · exact absurd (List.any_eq_true.mpr ⟨l, hl, hsl⟩) (by simp [h1])
    | ok b => rw [hb] at hc; simp at hc
  · intro fs os single dir p ps i h1 hfs
    obtain ⟨e, he⟩ := habort h1
    refine ⟨e, he, ?_, ?_⟩
    · rw [runLoop, hfs]
      simp [he]
    · intro hpos
      have hidx := hposit hpos
      rw [he] at hidx
      simpa using hidx

/-- C6 counterexample: the input `f x` + `v 1` contains a `v` record with
fewer than 3 fields, yet the converter raises `ValueError` (from the
earlier face line), not an index/lookup error. -/
theorem short_record_counterexample :
    hasShortLine "f x\nv 1" = true ∧
      convert_obj_to_mesh "f x\nv 1" = .error .valueError ∧
      ConvError.valueError ≠ ConvError.indexError := by decide

/-- Witness for C6 at the input `v 1` + `f x`: the short record comes
first, so even though a later face field is unparseable the raised error
is the `IndexError`; at `o x` there is no short record; and a one-file
batch whose input file holds `v 1` + `f x` stops with no write and the
propagated error. -/
theorem short_record_behavior_witness :
    (∃ e, convert_obj_to_mesh "v 1\nf x" = .error e) ∧
      convert_obj_to_mesh "v 1\nf x" = .error .indexError ∧
      (hasShortLine "o x" = false ∧
        convert_obj_to_mesh "o x" ≠ .error .indexError) ∧
      ∃ e, convert_obj_to_mesh "v 1\nf x" = .error e ∧
        runLoop (fun q => if q = "in.obj" then some "v 1\nf x" else none)
          ["out"] true true ["in.obj"] 0 = ([], some (.convError e)) ∧
        (shortBeforeBadFace (pySplitlines ("v 1\nf x").data) = true →
          e = ConvError.indexError) :=
  ⟨(short_record_behavior "v 1\nf x").1 (by decide),
    (short_record_behavior "v 1\nf x").2.1 (by decide),
    ⟨by decide, (short_record_behavior "o x").2.2.1 (by decide)⟩,
    (short_record_behavior "v 1\nf x").2.2.2 _ ["out"] true true "in.obj" [] 0
      (by decide) (by decide)⟩

/-- No character of a `wordsCore` word is whitespace. -/
theorem wordsCore_no_space (l : List Char) :
    (∀ c ∈ (wordsCore l).1, pyIsSpace c = false) ∧
      ∀ w ∈ (wordsCore l).2, ∀ c ∈ w, pyIsSpace c = false := by
  induction l with
  | nil => simp [wordsCore]
  | cons c cs ih =>
    obtain ⟨ih1, ih2⟩ := ih
    cases hc : pyIsSpace c
    · simp only [wordsCore, hc, Bool.false_eq_true, if_false]
      refine ⟨?_, ih2⟩
      intro x hx
      rcases List.mem_cons.mp hx with rfl | hx
      · exact hc
      · exact ih1 x hx
    · simp only [wordsCore, hc, if_true]
      refine ⟨by simp, ?_⟩
      intro w hw
      by_cases h1 : (wordsCore cs).1 = []
      · rw [if_pos h1] at hw
        exact ih2 w hw
      · rw [if_neg h1] at hw
        rcases List.mem_cons.mp hw with rfl | hw
        · exact ih1
        · exact ih2 w hw

/-- No character of a `pyWords` token is whitespace. -/
theorem pyWords_no_space (l : List Char) :
    ∀ w ∈ pyWords l, ∀ c ∈ w, pyIsSpace c = false := by
  intro w hw
  rw [pyWords] at hw
  obtain ⟨h1, h2⟩ := wordsCore_no_space l
  split at hw
  · exact h2 w hw
  · rcases List.mem_cons.mp hw with rfl | hw
    · exact h1
    · exact h2 w hw

/-- A whitespace-free word contains no newline. -/
theorem count_nl_word (w : List Char) (h : ∀ c ∈ w, pyIsSpace c = false) :
    w.count '\n' = 0 := by
  rw [List.count_eq_zero]
  intro hmem
  exact absurd (h '\n' hmem) (by decide)

/-- A well-formed line contributes one newline to the vertices buffer if it
is a `v` line and none otherwise. -/
theorem lineVerts_count (l : List Char) (hok : lineOk l = true) :
    (lineVerts l).count '\n' = if isVLine l = true then 1 else 0 := by
  have hns := pyWords_no_space l
  rw [lineVerts, lineOk] at *
  rw [isVLine]
  cases hw : pyWords l with
  | nil => simp
  | cons name props =>
    rw [hw] at hok
    by_cases hv : name = ['v']
    · subst hv
      simp at hok
      rcases props with _ | ⟨x, _ | ⟨y, _ | ⟨z, rest⟩⟩⟩
      · exact absurd hok (by simp)
      · exact absurd hok (by simp)
      · exact absurd hok (by simp)
      · have hx : x.count '\n' = 0 :=
          count_nl_word x (hns x (by rw [hw]; simp))
        have hy : y.count '\n' = 0 :=
          count_nl_word y (hns y (by rw [hw]; simp))
        have hz : z.count '\n' = 0 :=
          count_nl_word z (hns z (by rw [hw]; simp))
        simp [List.count_append, List.count_cons, hx, hy, hz]
    · simp [hv]

/-- A well-formed line contributes one newline to the texture-coordinate
buffer if it is a `vt` line and none otherwise. -/
theorem lineTex_count (l : List Char) (hok : lineOk l = true) :
    (lineTex l).count '\n' = if isVTLine l = true then 1 else 0 := by
  have hns := pyWords_no_space l
  rw [lineTex, lineOk] at *
  rw [isVTLine]
  cases hw : pyWords l with
  | nil => simp
  | cons name props =>
    rw [hw] at hok
    by_cases hvt : name = ['v', 't']
    · subst hvt
      simp at hok
      rcases props with _ | ⟨u, _ | ⟨v, rest⟩⟩
      · exact absurd hok (by simp)
      · exact absurd hok (by simp)
      · have hu : u.count '\n' = 0 :=
          count_nl_word u (hns u (by rw [hw]; simp))
        have hv2 : v.count '\n' = 0 :=
          count_nl_word v (hns v (by rw [hw]; simp))
        simp [List.count_append, List.count_cons, hu, hv2]
    · simp [hvt]

/-- Newline count of the flattened vertex contributions equals the number
of `v` lines. -/
theorem count_flatten_verts (ls : List (List Char))
    (hok : ∀ l ∈ ls, lineOk l = true) :
    ((ls.map lineVerts).flatten).count '\n' = (ls.filter isVLine).length := by
  induction ls with
  | nil => simp
  | cons l ls ih =>
    simp only [List.map_cons, List.flatten_cons, List.count_append]
    rw [lineVerts_count l (hok l (by simp)),
      ih (fun x hx => hok x (by simp [hx]))]
    cases hv : isVLine l
    · simp [List.filter_cons, hv]
    · simp [List.filter_cons, hv]; omega

/-- Newline count of the flattened texture contributions equals the number
of `vt` lines. -/
theorem count_flatten_tex (ls : List (List Char))
    (hok : ∀ l ∈ ls, lineOk l = true) :
    ((ls.map lineTex).flatten).count '\n' = (ls.filter isVTLine).length := by
  induction ls with
  | nil => simp
  | cons l ls ih =>
    simp only [List.map_cons, List.flatten_cons, List.count_append]
    rw [lineTex_count l (hok l (by simp)),
      ih (fun x hx => hok x (by simp [hx]))]
    cases hv : isVTLine l
    · simp [List.filter_cons, hv]
    · simp [List.filter_cons, hv]; omega

/-- The digit character of `k < 10` lies in the ASCII digit range. -/
theorem digitChar_bound (k : Nat) (hk : k < 10) :
    48 ≤ (digitChar k).toNat ∧ (digitChar k).toNat ≤ 57 := by
  interval_cases k <;> decide

/-- Every character produced by the digit extractor is a decimal digit (or
came from the accumulator). -/
theorem natDigitsAux_chars (fuel : Nat) : ∀ n acc c, c ∈ natDigitsAux fuel n acc →
    c ∈ acc ∨ (48 ≤ c.toNat ∧ c.toNat ≤ 57) := by
  induction fuel with
  | zero => intro n acc c hc; exact Or.inl hc
  | succ fuel ih =>
    intro n acc c hc
    rw [natDigitsAux] at hc
    split at hc
    next hlt =>
      rcases List.mem_cons.mp hc with rfl | hc
      · exact Or.inr (digitChar_bound n hlt)
      · exact Or.inl hc
    next hlt =>
      rcases ih _ _ _ hc with h | h
      · rcases List.mem_cons.mp h with rfl | h
        · exact Or.inr (digitChar_bound _ (Nat.mod_lt _ (by omega)))
        · exact Or.inl h
      · exact Or.inr h

/-- The rendered decimal of an integer contains no space. -/
theorem pyStrInt_count_sp (i : Int) : (pyStrInt i).count ' ' = 0 := by
  have hd : ∀ n : Nat, (natDigits n).count ' ' = 0 := by
    intro n
    rw [List.count_eq_zero]
    intro hmem
    rcases natDigitsAux_chars _ _ _ _ hmem with h | h
    · simp at h
    · revert h; decide
  cases i with
  | ofNat n => exact hd n
  | negSucc n =>
    rw [pyStrInt, List.count_cons, hd (n + 1)]
    simp

/-- Each index chunk contains exactly one space, the trailing one. -/
theorem idxChunk_count (s : List Char) : (idxChunk s).count ' ' = 1 := by
  rw [idxChunk, List.count_append, pyStrInt_count_sp]
  simp

/-- The flattened chunk list has one space per slot. -/
theorem chunks_count (ss : List (List Char)) :
    ((ss.map idxChunk).flatten).count ' ' = ss.length := by
  induction ss with
  | nil => simp
  | cons s ss ih => simp [List.count_append, idxChunk_count, ih]; omega

/-- A non-face line has no slots. -/
theorem lineSlots_nil_of_not_f (l : List Char) (h : isFLine l = false) :
    lineSlots l = [] := by
  rw [isFLine] at h
  rw [lineSlots]
  cases hw : pyWords l with
  | nil => rfl
  | cons name props =>
    rw [hw] at h
    simp at h
    simp [h]

/-- Space count of the flattened index contributions is three per face
line when every face line has exactly three fields. -/
theorem count_flatten_idx (ls : List (List Char))
    (htri : ∀ l ∈ ls, isFLine l = true → (lineSlots l).length = 3) :
    ((ls.map lineIdx).flatten).count ' ' = 3 * (ls.filter isFLine).length := by
  induction ls with
  | nil => simp
  | cons l ls ih =>
    simp only [List.map_cons, List.flatten_cons, List.count_append]
    rw [lineIdx, chunks_count, ih (fun x hx hf => htri x (by simp [hx]) hf)]
    cases hf : isFLine l
    · rw [lineSlots_nil_of_not_f l hf]
      simp [List.filter_cons, hf]
    · rw [htri l (by simp) hf]
      simp [List.filter_cons, hf]
      omega

/-- C8: on every successful conversion the vertices buffer is the in-order
concatenation of one `x y z` line per `v` record (so its newline count is
the number of `v` lines), likewise the texture buffer for `vt` records,
and when every face line has exactly 3 fields the indices buffer holds
`3 x (number of f lines)` integers (counted by their trailing spaces). -/
theorem section_counts (txt : String) (b : Buffers)
    (h : convertBufs txt = .ok b) :
    b.vertices = ((pySplitlines txt.data).map lineVerts).flatten ∧
      b.vertices.count '\n' = countV txt ∧
      b.texCoords = ((pySplitlines txt.data).map lineTex).flatten ∧
      b.texCoords.count '\n' = countVT txt ∧
      (facesTriangular txt = true → b.indices.count ' ' = 3 * countF txt) := by
  obtain ⟨h1, h2, h3, h4⟩ := processLines_ok _ _ _ h
  simp only [List.nil_append] at h1 h2 h3
  refine ⟨h1, ?_, h2, ?_, ?_⟩
  · rw [h1, countV]
    exact count_flatten_verts _ h4
  · rw [h2, countVT]
    exact count_flatten_tex _ h4
  · intro htri
    rw [h3, countF]
    apply count_flatten_idx
    intro l hl hf
    rw [facesTriangular, List.all_eq_true] at htri
    have := htri l hl
    simp [hf] at this
    exact this

/-- Witness for C8 at a four-line input with one `v`, one `vt`, one
triangular `f` and one ignored line. -/
theorem section_counts_witness :
    convertBufs "v 1 2 3\nvt 0 1\nf 1/1 2/2 3/3\no junk" =
        .ok ⟨("1 2 3\n").data, ("0 1 2 ").data, ("0 1\n").data⟩ ∧
      (("1 2 3\n").data =
          ((pySplitlines ("v 1 2 3\nvt 0 1\nf 1/1 2/2 3/3\no junk").data).map
            lineVerts).flatten ∧
        ("1 2 3\n").data.count '\n' = countV "v 1 2 3\nvt 0 1\nf 1/1 2/2 3/3\no junk" ∧
        ("0 1\n").data =
          ((pySplitlines ("v 1 2 3\nvt 0 1\nf 1/1 2/2 3/3\no junk").data).map
            lineTex).flatten ∧
        ("0 1\n").data.count '\n' = countVT "v 1 2 3\nvt 0 1\nf 1/1 2/2 3/3\no junk" ∧
        (facesTriangular "v 1 2 3\nvt 0 1\nf 1/1 2/2 3/3\no junk" = true →
          ("0 1 2 ").data.count ' ' =
            3 * countF "v 1 2 3\nvt 0 1\nf 1/1 2/2 3/3\no junk")) :=
  ⟨by decide,
    section_counts "v 1 2 3\nvt 0 1\nf 1/1 2/2 3/3\no junk"
      ⟨("1 2 3\n").data, ("0 1 2 ").data, ("0 1\n").data⟩ (by decide)⟩

/-- Without any `-o` token every argument is classified as an input. -/
theorem parseArgsLoop_all_inputs (l : List String) (h : "-o" ∉ l) :
    parseArgsLoop false l = .ok (l, []) := by
  induction l with
  | nil => rfl
  | cons a l ih =>
    have ha : a ≠ "-o" := fun heq => h (by simp [heq])
    have hba : (a == "-o") = false := by simp [ha]
    rw [parseArgsLoop.eq_def]
    simp only [hba, Bool.false_or, Bool.false_eq_true, if_false]
    rw [ih (fun hm => h (by simp [hm]))]

/-- A single trailing `-o` makes the classification loop read past the end
of the argument list. -/
theorem parseArgsLoop_dangling (pre : List String) (h : "-o" ∉ pre) :
    parseArgsLoop false (pre ++ ["-o"]) = .error () := by
  induction pre with
  | nil => decide
  | cons a pre ih =>
    have ha : a ≠ "-o" := fun heq => h (by simp [heq])
    have hba : (a == "-o") = false := by simp [ha]
    rw [List.cons_append, parseArgsLoop.eq_def]
    simp only [hba, Bool.false_or, Bool.false_eq_true, if_false]
    rw [ih (fun hm => h (by simp [hm]))]

/-- C9 counterexample: `["-o", "-o"]` ends in `-o` yet the loop terminates
normally - the final `-o` is consumed as the operand of the first - and
the whole run completes without any index error. -/
theorem dangling_flag_counterexample :
    ["-o", "-o"].getLast? = some "-o" ∧
      parseArgsLoop false ["-o", "-o"] = .ok ([], ["-o"]) ∧
      runMain ["-o", "-o"] (fun _ => none) = ([], none) := by
  refine ⟨by decide, by decide, by rfl⟩

/-- C9 (amended): when `-o` occurs exactly once and is the last token, the
classification loop fails with the out-of-range read, before any file
system access; with no `-o` at all it terminates normally, classifying
every token as an input.  (With repeated `-o` tokens a trailing `-o` can
instead be consumed as the operand of the previous one, as the
counterexample shows.) -/
theorem dangling_flag_index_error (pre l : List String)
    (h1 : "-o" ∉ pre) (h2 : "-o" ∉ l) :
    parseArgsLoop false (pre ++ ["-o"]) = .error () ∧
      (∀ fs, runMain (pre ++ ["-o"]) fs = ([], some .argIndexError)) ∧
      parseArgsLoop false l = .ok (l, []) := by
  refine ⟨parseArgsLoop_dangling pre h1, ?_, parseArgsLoop_all_inputs l h2⟩
  intro fs
  rw [runMain, parseArgsLoop_dangling pre h1]

/-- Witness for C9 at `["a.obj", "-o"]` and `["a.obj", "b.obj"]`. -/
theorem dangling_flag_index_error_witness :
    parseArgsLoop false (["a.obj"] ++ ["-o"]) = .error () ∧
      runMain (["a.obj"] ++ ["-o"]) (fun _ => none) = ([], some .argIndexError) ∧
      parseArgsLoop false ["a.obj", "b.obj"] = .ok (["a.obj", "b.obj"], []) :=
  ⟨(dangling_flag_index_error ["a.obj"] ["a.obj", "b.obj"] (by decide) (by decide)).1,
    (dangling_flag_index_error ["a.obj"] ["a.obj", "b.obj"] (by decide) (by decide)).2.1 _,
    (dangling_flag_index_error ["a.obj"] ["a.obj", "b.obj"] (by decide) (by decide)).2.2⟩

/-- C5: an output count that is neither 1 nor the input count makes the
run raise the configuration error, with no writes, for every file system
(so before any file is read or written and with no conversion
performed). -/
theorem config_error_mismatch (args is os : List String)
    (fs : String → Option String)
    (hp : parseArgsLoop false args = .ok (is, os))
    (h1 : os.length ≠ 1) (h2 : os.length ≠ is.length) :
    runMain args fs =
      ([], some (.configError
        "invalid output: output should be equal to inputs or be one")) := by
  rw [runMain, hp]
  have hs : (os.length == 1) = false := by simp [h1]
  have hl : (os.length != is.length) = true := by simp [h2]
  simp [hs, hl]

/-- Witness for C5 at one input and two outputs. -/
theorem config_error_mismatch_witness :
    runMain ["a.obj", "-o", "x", "y"] (fun _ => none) =
      ([], some (.configError
        "invalid output: output should be equal to inputs or be one")) :=
  config_error_mismatch ["a.obj", "-o", "x", "y"] ["a.obj"] ["x", "y"] _
    (by decide) (by decide) (by decide)

/-- With `is_single` set, every conversion is written to the first output
path. -/
theorem runLoop_single (fs : String → Option String) (os : List String)
    (dir : Bool) (is : List String)
    (hok : ∀ p ∈ is, readConvOk fs p = true) : ∀ i,
    runLoop fs os true dir is i =
      (is.map (fun p => (os.headD "", convOf fs p)), none) := by
  induction is with
  | nil => intro i; rfl
  | cons p ps ih =>
    intro i
    have hp := hok p (by simp)
    rw [readConvOk] at hp
    cases hfs : fs p with
    | none => rw [hfs] at hp; simp at hp
    | some t =>
      rw [hfs] at hp
      cases hcv : convert_obj_to_mesh t with
      | error e => simp [hcv] at hp
      | ok r =>
        have hcof : convOf fs p = r := by
          simp only [convOf, hfs, hcv]
        have ihh := ih (fun x hx => hok x (by simp [hx])) (i + 1)
        rw [runLoop, hfs]
        simp [hcv, ihh, hcof]

/-- With `is_single` clear (parallel mode), the i-th input is written to
the i-th output. -/
theorem runLoop_parallel (fs : String → Option String) (os : List String)
    (is : List String) (hok : ∀ p ∈ is, readConvOk fs p = true) :
    ∀ k, os.length = k + is.length →
    runLoop fs os false false is k =
      ((is.zip (os.drop k)).map (fun pr => (pr.2, convOf fs pr.1)), none) := by
  induction is with
  | nil => intro k hk; simp [runLoop]
  | cons p ps ih =>
    intro k hk
    have hklt : k < os.length := by rw [hk, List.length_cons]; omega
    have hp := hok p (by simp)
    rw [readConvOk] at hp
    cases hfs : fs p with
    | none => rw [hfs] at hp; simp at hp
    | some t =>
      rw [hfs] at hp
      cases hcv : convert_obj_to_mesh t with
      | error e => simp [hcv] at hp
      | ok r =>
        have hcof : convOf fs p = r := by
          simp only [convOf, hfs, hcv]
        have ihh := ih (fun x hx => hok x (by simp [hx])) (k + 1)
          (by rw [hk, List.length_cons]; omega)
        have hdrop : os.drop k = os[k] :: os.drop (k + 1) :=
          List.drop_eq_getElem_cons hklt
        have hgetd : os.getD k "" = os[k] := List.getD_eq_getElem os "" hklt
        rw [runLoop, hfs]
        simp only [hcv, Bool.false_eq_true, if_false]
        rw [ihh, hgetd, hdrop, List.zip_cons_cons, List.map_cons]
        simp [hcof]

/-- The whole run in single-output mode: parse, validate (trivially), then
write every conversion to the one output path. -/
theorem runMain_single (args is : List String) (o : String)
    (fs : String → Option String)
    (hp : parseArgsLoop false args = .ok (is, [o]))
    (hok : ∀ p ∈ is, readConvOk fs p = true) :
    runMain args fs = (is.map (fun p => (o, convOf fs p)), none) := by
  rw [runMain, hp]
  simp only [List.length_cons, List.length_nil, Nat.zero_add, beq_self_eq_true,
    Bool.not_true, Bool.false_and, Bool.false_eq_true, if_false, Bool.true_and]
  rw [runLoop_single fs [o] true is hok 0]
  simp

/-- C4: when the classified outputs are exactly as many as the inputs, the
run maps the i-th input to the i-th output by position, writing
`convert(read(input[i]))` to `output[i]` for every i (given that every
read and conversion succeeds). -/
theorem parallel_mode (args is os : List String) (fs : String → Option String)
    (hp : parseArgsLoop false args = .ok (is, os))
    (hlen : os.length = is.length)
    (hok : ∀ p ∈ is, readConvOk fs p = true) :
    runMain args fs =
      ((is.zip os).map (fun pr => (pr.2, convOf fs pr.1)), none) := by
  by_cases h1 : os.length = 1
  · obtain ⟨o, rfl⟩ := List.length_eq_one.mp h1
    have hislen : is.length = 1 := by omega
    obtain ⟨p, rfl⟩ := List.length_eq_one.mp hislen
    rw [runMain_single args [p] o fs hp hok]
    simp
  · have hs : (os.length == 1) = false := by simp [h1]
    have hl : (os.length != is.length) = false := by simp [hlen]
    rw [runMain, hp]
    simp only [hs, hl, Bool.not_false, Bool.true_and, Bool.false_eq_true,
      if_false, Bool.false_and]
    rw [runLoop_parallel fs os is hok 0 (by simpa using hlen)]
    simp

/-- Witness for C4 at two inputs and two outputs. -/
theorem parallel_mode_witness :
    runMain ["a.obj", "b.obj", "-o", "x.mesh", "y.mesh"] exFS1 =
      (((["a.obj", "b.obj"].zip ["x.mesh", "y.mesh"]).map
        (fun pr => (pr.2, convOf exFS1 pr.1))), none) :=
  parallel_mode ["a.obj", "b.obj", "-o", "x.mesh", "y.mesh"]
    ["a.obj", "b.obj"] ["x.mesh", "y.mesh"] exFS1 (by decide) (by decide)
    (by decide)

/-- The basename of a path contains no slash. -/
theorem basenameChars_no_slash (p : List Char) : ∀ c ∈ basenameChars p, c ≠ '/' := by
  intro c hc
  rw [basenameChars, List.mem_reverse] at hc
  have := List.mem_takeWhile_imp hc
  simpa [notSlash] using this

/-- The stem of a path contains no slash. -/
theorem stemChars_no_slash (p : List Char) : ∀ c ∈ stemChars p, c ≠ '/' := by
  intro c hc
  rw [stemChars] at hc
  split at hc
  · exact basenameChars_no_slash p c hc
  · split at hc
    · exact basenameChars_no_slash p c hc
    · rw [List.mem_reverse, stemRevOf] at hc
      have hdrop := List.mem_of_mem_drop hc
      rw [List.mem_reverse] at hdrop
      exact basenameChars_no_slash p c hdrop

/-- The derived per-input file name `stem + ".mesh"` never equals the
output path it would be joined under: the join is strictly longer. -/
theorem derivedPath_ne (o p : String) : derivedPath o p ≠ o := by
  intro heq
  rw [derivedPath, pathJoin] at heq
  have hdata : (String.mk (stemChars p.data) ++ ".mesh").data =
      stemChars p.data ++ (".mesh").data := rfl
  have hlen : (String.mk (stemChars p.data) ++ ".mesh").length =
      (stemChars p.data).length + 5 := by
    have : (String.mk (stemChars p.data) ++ ".mesh").length =
        (stemChars p.data ++ (".mesh").data).length := congrArg List.length hdata
    simpa using this
  have hhead : ¬((String.mk (stemChars p.data) ++ ".mesh").data.head? = some '/') := by
    rw [hdata]
    cases hst : stemChars p.data with
    | nil => simp [hst]
    | cons c cs =>
      simp only [List.cons_append, List.head?_cons]
      intro hcon
      exact stemChars_no_slash p.data c (by rw [hst]; simp)
        (Option.some_inj.mp hcon)
  rw [if_neg hhead] at heq
  split at heq
  · have := congrArg String.length heq
    rw [String.length_append, hlen] at this
    omega
  · have := congrArg String.length heq
    rw [String.length_append, String.length_append, hlen] at this
    have h1 : ("/" : String).length = 1 := rfl
    rw [h1] at this
    omega

/-- Folding the write list over a constant target keeps the last written
content. -/
theorem foldl_write_const {α : Type} (o : String) (g : α → String) :
    ∀ (l : List α) (hne : l ≠ []) (init : Option String),
      (l.map (fun p => (o, g p))).foldl
          (fun acc w => if w.1 = o then some w.2 else acc) init =
        some (g (l.getLast hne)) := by
  intro l
  induction l with
  | nil => intro hne; exact absurd rfl hne
  | cons p ps ih =>
    intro hne init
    rcases ps with _ | ⟨q, qs⟩
    · simp [List.getLast]
    · rw [List.map_cons, List.foldl_cons]
      have hstep : (if (o, g p).1 = o then some (o, g p).2 else init) =
          some (g p) := by simp
      rw [hstep, ih (by simp) (some (g p))]
      congr 1

/-- C10: with a single classified output path, every input is converted in
order and written to that same path; the final content of the path is the
conversion of the last input; and no derived `<stem>.mesh` path is ever
written. -/
theorem single_output_overwrites (args is : List String) (o : String)
    (fs : String → Option String)
    (hp : parseArgsLoop false args = .ok (is, [o]))
    (hok : ∀ p ∈ is, readConvOk fs p = true) (hne : is ≠ []) :
    runMain args fs = (is.map (fun p => (o, convOf fs p)), none) ∧
      (∀ w ∈ (runMain args fs).1, w.1 = o) ∧
      finalContent (runMain args fs).1 o = some (convOf fs (is.getLast hne)) ∧
      ∀ p ∈ is, derivedPath o p ∉ (runMain args fs).1.map Prod.fst := by
  have hrun := runMain_single args is o fs hp hok
  refine ⟨hrun, ?_, ?_, ?_⟩
  · rw [hrun]
    intro w hw
    simp only [List.mem_map] at hw
    obtain ⟨q, -, rfl⟩ := hw
    rfl
  · rw [hrun, finalContent]
    exact foldl_write_const o (convOf fs) is hne none
  · rw [hrun]
    intro p hpmem hmem
    simp only [List.map_map, List.mem_map] at hmem
    obtain ⟨q, -, hq⟩ := hmem
    exact derivedPath_ne o p hq.symm

/-- Witness for C10 at two inputs and the single output `out`. -/
theorem single_output_overwrites_witness :
    runMain ["a.obj", "b.obj", "-o", "out"] exFS1 =
        (["a.obj", "b.obj"].map (fun p => ("out", convOf exFS1 p)), none) ∧
      (∀ w ∈ (runMain ["a.obj", "b.obj", "-o", "out"] exFS1).1, w.1 = "out") ∧
      finalContent (runMain ["a.obj", "b.obj", "-o", "out"] exFS1).1 "out" =
        some (convOf exFS1 "b.obj") ∧
      ∀ p ∈ ["a.obj", "b.obj"], derivedPath "out" p ∉
        (runMain ["a.obj", "b.obj", "-o", "out"] exFS1).1.map Prod.fst :=
  single_output_overwrites ["a.obj", "b.obj", "-o", "out"] ["a.obj", "b.obj"]
    "out" exFS1 (by decide) (by decide) (by decide)

/-- C1 (amended): `-o` with one output path and several inputs does not
create per-input files in a directory: the dead `is_directory` branch is
never taken, every conversion is written to the single output path itself,
and no `<stem>.mesh` path is ever a write target. -/
theorem single_output_multi_inputs (args is : List String) (o : String)
    (fs : String → Option String)
    (hp : parseArgsLoop false args = .ok (is, [o]))
    (hlen : 1 < is.length)
    (hok : ∀ p ∈ is, readConvOk fs p = true) :
    runMain args fs = (is.map (fun p => (o, convOf fs p)), none) ∧
      ∀ p ∈ is, derivedPath o p ∉ (runMain args fs).1.map Prod.fst := by
  have hrun := runMain_single args is o fs hp hok
  refine ⟨hrun, ?_⟩
  rw [hrun]
  intro p hpmem hmem
  simp only [List.map_map, List.mem_map] at hmem
  obtain ⟨q, -, hq⟩ := hmem
  exact derivedPath_ne o p hq.symm

/-- Witness for C1's amended statement at two inputs and the single output
path `outdir`. -/
theorem single_output_multi_inputs_witness :
    runMain ["a.obj", "b.obj", "-o", "outdir"] exFS1 =
        (["a.obj", "b.obj"].map (fun p => ("outdir", convOf exFS1 p)), none) ∧
      ∀ p ∈ ["a.obj", "b.obj"], derivedPath "outdir" p ∉
        (runMain ["a.obj", "b.obj", "-o", "outdir"] exFS1).1.map Prod.fst :=
  single_output_multi_inputs ["a.obj", "b.obj", "-o", "outdir"]
    ["a.obj", "b.obj"] "outdir" exFS1 (by decide) (by decide) (by decide)

/-- C1 counterexample: with two inputs and one output path `out`, the run
writes both conversions to `out` itself; the files `out/a.mesh` and
`out/b.mesh` the claim names are never written. -/
theorem single_output_no_directory_counterexample :
    (runMain ["a.obj", "b.obj", "-o", "out"] exFS1).1.map Prod.fst =
        ["out", "out"] ∧
      derivedPath "out" "a.obj" = "out/a.mesh" ∧
      derivedPath "out" "b.obj" = "out/b.mesh" ∧
      "out/a.mesh" ∉ (runMain ["a.obj", "b.obj", "-o", "out"] exFS1).1.map Prod.fst ∧
      "out/b.mesh" ∉ (runMain ["a.obj", "b.obj", "-o", "out"] exFS1).1.map Prod.fst := by
  decide

end MeshConvert
